import Mathlib

/-!
Verification development for the fogo-companion document pipeline
(`utils.py`, `vectorstore.py`, `doc_reasoner.py`, `ingest.py`).

Texts are modelled as `List Char`, machine file paths as `String`.
Filesystem access, file hashing and the regex engine of Python's `re`
module are external to the repository's code: they enter the model as
fields of an environment record (`Env`, `MatchEnv`), each an arbitrary
function, fallible ones `Except`-valued.  Every repository function is
translated line by line from its source.
-/

/-- Python `str.strip()` on a text: drop leading and trailing whitespace. -/
def pyStrip (l : List Char) : List Char :=
  ((l.dropWhile Char.isWhitespace).reverse.dropWhile Char.isWhitespace).reverse

/-- `text.replace("\r\n", "\n")` (utils.py line 53): left-to-right,
non-overlapping. -/
def normCRLF : List Char → List Char
  | [] => []
  | '\r' :: '\n' :: rest => '\n' :: normCRLF rest
  | c :: rest => c :: normCRLF rest

/-- `chunk.rfind("\n")` (utils.py line 62) on a chunk known to contain a
newline: the index of the last newline, `none` when there is none. -/
def rfindNl : List Char → Option Nat
  | [] => none
  | c :: cs =>
    match rfindNl cs with
    | some i => some (i + 1)
    | none => if c = '\n' then some 0 else none

/-- The sliding-window loop of `chunk_text` (utils.py lines 57-71), with a
fuel argument in place of Python's unbounded `while`: `none` means the
fuel ran out before `start` reached the end of the text.
`chunk_text_default_total` proves that fuel `t.length + 1` suffices for
every text whenever `5 * overlap < 2 * chunk_size` (the default
parameters are 1000 and 150).  The Python threshold `int(chunk_size * 0.4)`
is modelled as `2 * chunk_size / 5` (they agree at the default 1000, both
400). -/
def chunkLoopF (cs ov : Nat) (t : List Char) : Nat → Nat → List (List Char) → Option (List (List Char))
  | 0, _, _ => none
  | fuel + 1, start, acc =>
    if start < t.length then
      let chunk0 := (t.drop start).take cs
      let p :=
        match rfindNl chunk0 with
        | some lastNl =>
          if 2 * cs / 5 < lastNl then (start + lastNl, chunk0.take lastNl)
          else (start + cs, chunk0)
        | none => (start + cs, chunk0)
      chunkLoopF cs ov t fuel (p.1 - ov) (acc ++ [pyStrip p.2])
    else some acc

/-- `chunk_text(text, chunk_size, overlap)` (utils.py lines 52-72).  A text
no longer than `chunk_size` is returned whole (unstripped); otherwise the
sliding-window loop runs. -/
def chunk_textF (text : List Char) (cs ov : Nat) : Option (List (List Char)) :=
  let t := normCRLF text
  if t.length ≤ cs then some [t]
  else chunkLoopF cs ov t (t.length + 1) 0 []

/-- `chunk_text` at its default parameters `chunk_size=1000, overlap=150`;
total because the fuel is proved sufficient (`chunk_text_default_total`). -/
def chunk_text (text : List Char) : List (List Char) :=
  (chunk_textF text 1000 150).getD []

/-- The tail of `load_and_split_docs` (utils.py lines 95-98): empty or
whitespace-only extracted text yields no chunks, otherwise `chunk_text`
splits it. -/
def splitText (text : List Char) : List (List Char) :=
  if pyStrip text = [] then [] else chunk_text text

/-- The fixed header of `fogo_chat_prompt` (utils.py lines 107-111). -/
def fogoHeaderBase : String :=
  "You are Fogo Companion, a highly intelligent assistant specializing in on-chain projects. Your goal is to provide clear, insightful, and varied answers by synthesizing internal documents and reasoning critically. Avoid repetitive phrasing and strive for unique, engaging expressions in each response."

/-- The instruction block of `fogo_chat_prompt` (utils.py lines 117-128). -/
def fogoInstructions : String :=
  "\nINSTRUCTIONS FOR THE ASSISTANT:\n1. **Synthesize and Reason**: Analyze the provided document snippets and reason step-by-step to craft a comprehensive answer. Connect concepts logically and provide insights that go beyond surface-level information.\n2. **Avoid Repetition**: Do not reuse the same opening phrases or structures across responses. Craft each answer with fresh wording and perspectives, even if answering the same question multiple times.\n3. **Be Insightful**: Highlight unique aspects of the project, such as technological advantages, real-world impact, or comparisons to competitors. Use critical thinking to infer implications or potential future developments.\n4. **Evaluate Credibility**: Prioritize information from official or authoritative sources (e.g., whitepapers, official announcements) over less reliable ones. If sources conflict, analyze the discrepancy and provide a reasoned judgment.\n5. **Structure Clearly**: Start with a direct, concise answer to the user's question, followed by a detailed explanation. Use bullet points, examples, or analogies where appropriate to enhance clarity and engagement.\n6. **Preserve Exact Details**: When providing technical details (e.g., URLs, contract addresses, commands), reproduce them verbatim from the documents. Do not paraphrase or omit specifics.\n7. **Professional Tone**: Maintain a professional, respectful tone. Avoid slang, profanity, or overly casual language unless explicitly relevant to the context.\n8. **Handle Uncertainty**: If information is missing or unclear, acknowledge it and provide the best possible answer based on available data, suggesting where users can find more details (e.g., official websites).\n9. **Comparative Analysis**: If relevant, compare the project to others, emphasizing unique features like performance, scalability, or solutions to blockchain challenges (e.g., MEV, latency).\n10. **Engage the User**: Tailor the response to be engaging and actionable, encouraging exploration (e.g., visiting project websites or experimenting with tools).\n"

/-- The header after the optional project addition (utils.py lines 112-113):
Python appends only when `project` is truthy (not `None`, not empty). -/
def fogoHeader (project : Option String) : String :=
  match project with
  | none => fogoHeaderBase
  | some p =>
    if p = "" then fogoHeaderBase
    else fogoHeaderBase ++ " The user is asking about: " ++ p ++ "."

/-- `fogo_chat_prompt(user_question, context_texts, project)`
(utils.py lines 101-137). -/
def fogo_chat_prompt (user_question : String) (context_texts : List String) (project : Option String) : String :=
  let header := fogoHeader project
  let ctx :=
    if context_texts = [] then "No relevant documents were found."
    else String.intercalate "\n\n---\n\n" context_texts
  header ++ "\n\n" ++ fogoInstructions ++ "\n\n" ++ "DOCUMENT CONTEXT:\n" ++ ctx
    ++ "\n\n" ++ "USER QUESTION: " ++ user_question ++ "\n\n"
    ++ "Now, provide a brilliant, varied, and insightful response, reasoning through the information to deliver a unique perspective."

/-- The prompt assembly with the document-context slot abstracted, to state
how `fogo_chat_prompt` fills that slot. -/
def promptWith (user_question : String) (project : Option String) (ctx : String) : String :=
  fogoHeader project ++ "\n\n" ++ fogoInstructions ++ "\n\n" ++ "DOCUMENT CONTEXT:\n" ++ ctx
    ++ "\n\n" ++ "USER QUESTION: " ++ user_question ++ "\n\n"
    ++ "Now, provide a brilliant, varied, and insightful response, reasoning through the information to deliver a unique perspective."

/-- A chunk record of the store's metadata list (ingest.py lines 41-46):
`{"source": ..., "text": ..., "project": ..., "file_hash": ...}`. -/
structure Rec where
  source : String
  text : List Char
  project : String
  file_hash : String
deriving DecidableEq, Repr

/-- The store's state: `VectorStore.metadata` (vectorstore.py line 11). -/
abbrev Store := List Rec

/-- `VectorStore.add_texts(texts, metadatas)` (vectorstore.py lines 39-45):
a falsy (empty) `texts` returns early, otherwise the metadatas are appended;
`texts` is never otherwise consulted and no length check is made. -/
def add_texts (texts : List (List Char)) (metadatas : List Rec) (st : Store) : Store :=
  if texts = [] then st else st ++ metadatas

/-- `VectorStore.remove_by_sources(sources_to_remove)` (vectorstore.py lines
47-59): no-op on falsy arguments, else keep the records whose source is not
listed. -/
def remove_by_sources (sources_to_remove : List String) (st : Store) : Store :=
  if sources_to_remove = [] ∨ st = [] then st
  else st.filter (fun m => decide (¬ m.source ∈ sources_to_remove))

/-- The signal record `analyze_documents` builds per source
(doc_reasoner.py lines 37-44). -/
structure DocSig where
  text : List Char
  procedural_score : Nat
  positive_claims : Nat
  negative_claims : Nat
  length : Nat
deriving DecidableEq, Repr

/-- `STEP_PATTERNS` (doc_reasoner.py lines 6-10). -/
def STEP_PATTERNS : List String :=
  [r"^\s*\d+\.", r"^\s*step\b", r"^\s*-\s", r"\bhow to\b", r"\binstructions?\b",
   r"\bexample\b", r"\bcommand\b", r"\bcurl\b", r"\brpc\b", r"\bendpoint\b",
   r"https?://", r"\bfaucet\b", r"\bgeth\b", r"\bsolana\b", r"\btransfer\b", r"\bwallet\b"]

/-- `POSITIVE_STATUS_PATTERNS` (doc_reasoner.py lines 12-15). -/
def POSITIVE_STATUS_PATTERNS : List String :=
  [r"\bis\s+live\b", r"\bis\s+launched\b", r"\bis\s+available\b", r"\bis\s+open\b",
   r"\bis\s+active\b", r"\bnow\s+live\b", r"\bgo\s+live\b", r"\bpublic\s+mainnet\b"]

/-- `NEGATIVE_STATUS_PATTERNS` (doc_reasoner.py lines 16-19). -/
def NEGATIVE_STATUS_PATTERNS : List String :=
  [r"\bnot\s+live\b", r"\bnot\s+yet\b", r"\bcoming\s+soon\b", r"\bplanned\b",
   r"\bpermissioned\b", r"\bprivate\b", r"\brestricted\b", r"\bclosed\b", r"\bpaused\b"]

/-- The regex engine of Python's `re` module (external library): an
arbitrary total match-counting function, through which `_count_matches`
(doc_reasoner.py lines 21-22) sums `len(re.findall(p, text, re.I | re.M))`
over a pattern list. -/
structure MatchEnv where
  countMatches : List String → List Char → Nat

/-- One step of the accumulator of Python `str.split()`: the current word
(reversed) is flushed at whitespace. -/
def wordsAux : List Char → List Char → List (List Char)
  | [], acc => if acc = [] then [] else [acc.reverse]
  | c :: cs, acc =>
    if c.isWhitespace then
      if acc = [] then wordsAux cs [] else acc.reverse :: wordsAux cs []
    else wordsAux cs (c :: acc)

/-- Python `s.split()`: maximal whitespace-free words of `s`, in order. -/
def pyWords (l : List Char) : List (List Char) := wordsAux l []

/-- `_normalize_text(s) = " ".join(s.split())` (doc_reasoner.py lines 24-25). -/
def normalize_text (l : List Char) : List Char :=
  List.intercalate [' '] (pyWords l)

/-- Appending a text to its source's bucket in the `defaultdict(list)` of
`analyze_documents` (doc_reasoner.py lines 29-32).  A new source keeps
insertion order: the bucket list order is first-occurrence order. -/
def bucketAdd (bs : List (String × List (List Char))) (src : String) (t : List Char) :
    List (String × List (List Char)) :=
  match bs with
  | [] => [(src, [t])]
  | (s, ts) :: rest =>
    if s = src then (s, ts ++ [t]) :: rest else (s, ts) :: bucketAdd rest src t

/-- The grouping loop of `analyze_documents` (doc_reasoner.py lines 29-32):
a record contributes only when both its source and its text are truthy
(non-empty). -/
def groupBySource (metas : List Rec) : List (String × List (List Char)) :=
  metas.foldl
    (fun bs m => if m.source = "" ∨ m.text = [] then bs else bucketAdd bs m.source m.text) []

/-- `analyze_documents(metadata_list)` (doc_reasoner.py lines 28-45): group
chunk texts by source, join each group with a blank line, and measure the
signals with the regex engine. -/
def analyze_documents (env : MatchEnv) (metadata_list : List Rec) : List (String × DocSig) :=
  (groupBySource metadata_list).map (fun p =>
    let combined := List.intercalate ['\n', '\n'] p.2
    (p.1,
     { text := combined
       procedural_score := env.countMatches STEP_PATTERNS combined
       positive_claims := env.countMatches POSITIVE_STATUS_PATTERNS combined
       negative_claims := env.countMatches NEGATIVE_STATUS_PATTERNS combined
       length := (normalize_text combined).length }))

/-- The score assigned to a source's signals (doc_reasoner.py lines 52-56),
with Python's float arithmetic carried out in `ℚ`:
`procedural_score * 10 + length / 1000.0 + positive_claims * 5 - negative_claims * 2`. -/
def score (sig : DocSig) : ℚ :=
  (sig.procedural_score : ℚ) * 10 + (sig.length : ℚ) / 1000
    + (sig.positive_claims : ℚ) * 5 - (sig.negative_claims : ℚ) * 2

/-- Insert a scored entry into a descending-sorted list, after every entry
of greater or equal key: the stable insertion step. -/
def insertDesc {α : Type} (x : ℚ × α) : List (ℚ × α) → List (ℚ × α)
  | [] => [x]
  | y :: ys => if x.1 ≤ y.1 then y :: insertDesc x ys else x :: y :: ys

/-- `scores.sort(reverse=True, key=lambda x: x[0])` (doc_reasoner.py line
58): Python's sort is stable, and a stable descending sort by key is
computed by left-to-right stable insertion. -/
def sortDesc {α : Type} (l : List (ℚ × α)) : List (ℚ × α) :=
  l.foldl (fun acc x => insertDesc x acc) []

/-- `decide_authoritative_source(doc_signals)` (doc_reasoner.py lines
47-63): score every source, sort descending (stably), return the ordered
source names and the winner with its signals. -/
def decide_authoritative_source (doc_signals : List (String × DocSig)) :
    List String × Option (String × DocSig) :=
  match doc_signals with
  | [] => ([], none)
  | _ :: _ =>
    let scores := doc_signals.map (fun p => (score p.2, p.1, p.2))
    let sorted := sortDesc scores
    (sorted.map (fun t => t.2.1), sorted.head?.map (fun t => t.2))

/-- The snippet loop of `build_context_for_query` (doc_reasoner.py lines
96-101): consecutive slices of at most `n` characters.  Python's `while`
would not terminate at `n = 0`; the default is 1500 and the `n = 0` case is
cut off. -/
def sliceEvery (n : Nat) (t : List Char) : List (List Char) :=
  if n = 0 then []
  else if h : t = [] then []
  else t.take n :: sliceEvery n (t.drop n)
termination_by t.length
decreasing_by
  simp only [List.length_drop]
  have : 0 < t.length := List.length_pos.mpr h
  omega

/-- `build_context_for_query(metadata_list, user_question, project,
max_snippet_chars)` (doc_reasoner.py lines 65-102).  The `project`
parameter is accepted and never read by the body. -/
def build_context_for_query (env : MatchEnv) (metadata_list : List Rec)
    (user_question : String) (project : Option String) (max_snippet_chars : Nat) :
    List String :=
  let doc_signals := analyze_documents env metadata_list
  match doc_signals with
  | [] => []
  | _ :: _ =>
    let r := decide_authoritative_source doc_signals
    let summary_lines :=
      ["RECONCILIATION SUMMARY (from Documents):", "- Query: " ++ user_question]
        ++ (match r.2 with
            | some (tsrc, tsig) =>
              if tsrc = "" then []
              else ["- Top authoritative document: " ++ tsrc,
                    "  (Procedural Score: " ++ toString tsig.procedural_score
                      ++ ", Length: " ++ toString tsig.length ++ ")"]
            | none => [])
        ++ ["- Rule: Preferring documents with concrete instructions for 'how-to' guidance."]
    String.intercalate "\n" summary_lines
      :: r.1.flatMap (fun src =>
        match doc_signals.lookup src with
        | none => []
        | some sig =>
          let text := pyStrip sig.text
          if text = [] then []
          else (sliceEvery max_snippet_chars text).map (fun sn =>
            "Source: " ++ src ++ "\n" ++ "\n" ++ String.mk sn))

/-- A Python exception reaching the model: the `FileNotFoundError` raised by
`ingest_directory` (ingest.py line 15), or an exception raised by a
filesystem or extraction call of the environment. -/
inductive PyExc where
  | fileNotFound (dir : String)
  | envErr (msg : String)
deriving DecidableEq, Repr

/-- The filesystem and external libraries seen by ingest.py, as arbitrary
functions: `dirExists` is `Path.exists()`, `listDir d` the concatenated
`rglob` results for the four supported extensions under `d` in discovery
order, `parent` is `Path(...).parent`, `hash` is `compute_file_hash`
(utils.py lines 15-24, reads the file, may raise), `extract` the raw text
extraction of `load_and_split_docs` (utils.py lines 84-92, may raise), and
`projectTag` is `_extract_project_tag(Path(...).name)` (ingest.py lines
57-65, a pure string computation no claim depends on). -/
structure Env where
  dirExists : String → Bool
  listDir : String → List String
  parent : String → String
  hash : String → Except PyExc String
  extract : String → Except PyExc (List Char)
  projectTag : String → String

/-- `load_and_split_docs(path)` (utils.py lines 75-98): extract the text
(an extraction failure is re-raised), then split it with `splitText`. -/
def loadSplit (env : Env) (path : String) : Except PyExc (List (List Char)) :=
  match env.extract path with
  | .error e => .error e
  | .ok text => .ok (splitText text)

/-- The metadata records built for one file's chunks (ingest.py lines 41-46). -/
def mkMetas (source : String) (chunks : List (List Char)) (tag : String) (file_hash : String) :
    List Rec :=
  chunks.map (fun c => { source := source, text := c, project := tag, file_hash := file_hash })

/-- One iteration of the file loop of `ingest_directory` (ingest.py lines
32-54): extract and split, skip the file when that fails (the per-file
`except` prints and continues) or yields no chunks, else hash the file
(same per-file `except`) and add the records. -/
def ingestStep (env : Env) (st : Store) (file_path : String) : Store :=
  match loadSplit env file_path with
  | .error _ => st
  | .ok chunks =>
    if chunks = [] then st
    else
      match env.hash file_path with
      | .error _ => st
      | .ok h => add_texts chunks (mkMetas file_path chunks (env.projectTag file_path) h) st

/-- The file loop of `ingest_directory` over the discovered files. -/
def ingestFold (env : Env) (files : List String) (st : Store) : Store :=
  files.foldl (ingestStep env) st

/-- `ingest_directory(docs_dir, vectorstore, rebuild)` (ingest.py lines
7-54): raise `FileNotFoundError` when the directory is missing, return
unchanged when no supported files are found, clear the store when
rebuilding, then run the file loop. -/
def ingest_directory (env : Env) (docs_dir : String) (st : Store) (rebuild : Bool) :
    Except PyExc Store :=
  if env.dirExists docs_dir = false then .error (.fileNotFound docs_dir)
  else
    let all_files := env.listDir docs_dir
    if all_files = [] then .ok st
    else .ok (ingestFold env all_files (if rebuild then [] else st))

/-- Insertion into a Python dict modelled as an association list: an
existing key keeps its place and takes the new value, a new key goes to
the end (insertion order). -/
def dictInsert (d : List (String × String)) (k v : String) : List (String × String) :=
  match d with
  | [] => [(k, v)]
  | (k0, v0) :: rest =>
    if k0 = k then (k0, v) :: rest else (k0, v0) :: dictInsert rest k v

/-- Lookup in the association-list dict: the first pair with the key. -/
def dictLookup (d : List (String × String)) (k : String) : Option String :=
  match d with
  | [] => none
  | (k0, v0) :: rest => if k0 = k then some v0 else dictLookup rest k

/-- The keys of the association-list dict, in insertion order. -/
def dictKeys (d : List (String × String)) : List String := d.map Prod.fst

/-- `{m.get("source"): m.get("file_hash") for m in vectorstore.metadata}`
(ingest.py line 100): later records override earlier ones. -/
def existingSources (st : Store) : List (String × String) :=
  st.foldl (fun d m => dictInsert d m.source m.file_hash) []

/-- The `current_files` loop (ingest.py lines 102-106): hash every
discovered file into a dict; the first failing hash raises out of the loop. -/
def currentFiles (env : Env) : List String → List (String × String) →
    Except PyExc (List (String × String))
  | [], d => .ok d
  | f :: fs, d =>
    match env.hash f with
    | .error e => .error e
    | .ok h => currentFiles env fs (dictInsert d f h)

/-- The files-to-add loop (ingest.py lines 108-111): every current file
missing from the index or carrying a different hash, in current-dict order. -/
def addedOf (current existing : List (String × String)) : List String :=
  (current.filter (fun p =>
    match dictLookup existing p.1 with
    | none => true
    | some h0 => decide (h0 ≠ p.2))).map Prod.fst

/-- The files-to-remove loop (ingest.py lines 113-116): every indexed
source no longer among the current files. -/
def removedOf (existing current : List (String × String)) : List String :=
  (dictKeys existing).filter (fun s => decide (¬ s ∈ dictKeys current))

/-- The add/update loop (ingest.py lines 127-132): for each added file,
remove its old records, then re-ingest the file's parent directory.  On an
exception the store reached so far accompanies the error (the caller's
`except` returns while the mutated store persists). -/
def syncAdded (env : Env) : List String → Store → Except (PyExc × Store) Store
  | [], st => .ok st
  | f :: fs, st =>
    let st1 := remove_by_sources [f] st
    match ingest_directory env (env.parent f) st1 false with
    | .error e => .error (e, st1)
    | .ok st2 => syncAdded env fs st2

/-- The body of the `try` of `auto_ingest_if_empty` (ingest.py lines
76-132): an error carries the exception together with the
`(added_files, removed_files)` lists accumulated so far and the store
reached so far, which the `except` clause returns. -/
def auto_ingest_body (env : Env) (docs_dir : String) (st : Store) :
    Except (PyExc × (List String × List String) × Store) ((List String × List String) × Store) :=
  if env.dirExists docs_dir = false then .ok (([], []), st)
  else if st = [] then
    match ingest_directory env docs_dir st true with
    | .error e => .error (e, ([], []), st)
    | .ok st2 => .ok ((env.listDir docs_dir, []), st2)
  else
    match currentFiles env (env.listDir docs_dir) [] with
    | .error e => .error (e, ([], []), st)
    | .ok current =>
      let existing := existingSources st
      let added := addedOf current existing
      let removed := removedOf existing current
      if added = [] ∧ removed = [] then .ok ((added, removed), st)
      else
        let st1 := if removed = [] then st else remove_by_sources removed st
        match (if added = [] then Except.ok st1 else syncAdded env added st1) with
        | .error e => .error (e.1, (added, removed), e.2)
        | .ok st2 => .ok ((added, removed), st2)

/-- `auto_ingest_if_empty(docs_dir, vectorstore)` (ingest.py lines 68-136):
the whole body runs under `try`; the catch-all `except` returns the
accumulated `(added_files, removed_files)` (with the store as mutated so
far).  The `Except` codomain is the general type of a Python callable; the
catch makes every result `ok`. -/
def auto_ingest_if_empty (env : Env) (docs_dir : String) (st : Store) :
    Except PyExc ((List String × List String) × Store) :=
  match auto_ingest_body env docs_dir st with
  | .ok r => .ok r
  | .error (_, lists, st2) => .ok (lists, st2)

/-- C5: for every input text that normalizes to empty or whitespace-only,
the split operation of `load_and_split_docs` returns an empty sequence of
chunks. -/
theorem c5_whitespace_yields_no_chunks (t : List Char) (h : ∀ c ∈ t, c.isWhitespace) :
    splitText t = [] := by
  have hd : t.dropWhile Char.isWhitespace = [] := List.dropWhile_eq_nil_iff.mpr h
  have hs : pyStrip t = [] := by simp [pyStrip, hd]
  simp [splitText, hs]

/-- Witness for C5 at the concrete whitespace-only text `" \n\t"`. -/
theorem c5_whitespace_yields_no_chunks_witness :
    splitText [' ', '\n', '\t'] = [] :=
  c5_whitespace_yields_no_chunks [' ', '\n', '\t'] (by decide)

/-- C6: the `project_filter` parameter of `build_context_for_query` is
inert; any two values of it give identical output sequences. -/
theorem c6_project_filter_inert (env : MatchEnv) (metadata_list : List Rec)
    (user_question : String) (max_snippet_chars : Nat) (p1 p2 : Option String) :
    build_context_for_query env metadata_list user_question p1 max_snippet_chars
      = build_context_for_query env metadata_list user_question p2 max_snippet_chars := rfl

/-- C8: with an empty `context_blocks` sequence the composed prompt carries
the fixed sentence "No relevant documents were found." in the document
context slot; with a non-empty sequence the blocks joined by the
horizontal-rule separator stand there instead. -/
theorem c8_prompt_context_slot (user_question : String) (project : Option String) :
    fogo_chat_prompt user_question [] project
      = promptWith user_question project "No relevant documents were found." ∧
    ∀ blocks : List String, blocks ≠ [] →
      fogo_chat_prompt user_question blocks project
        = promptWith user_question project (String.intercalate "\n\n---\n\n" blocks) := by
  refine ⟨rfl, fun blocks hb => ?_⟩
  simp only [fogo_chat_prompt, promptWith, if_neg hb]

/-- Witness for C8 at a concrete non-empty block sequence. -/
theorem c8_prompt_context_slot_witness :
    (["block one", "block two"] : List String) ≠ [] ∧
    fogo_chat_prompt "what is fogo" ["block one", "block two"] none
      = promptWith "what is fogo" none (String.intercalate "\n\n---\n\n" ["block one", "block two"]) :=
  ⟨by decide, (c8_prompt_context_slot "what is fogo" none).2 ["block one", "block two"] (by decide)⟩

/-- C9: `add_texts` reads the chunk texts only through their emptiness:
any two non-empty text sequences with the same metadatas produce the same
store, namely the old record list with the metadatas appended, and no
length check relates texts to metadatas. -/
theorem c9_add_texts_ignores_chunk_texts (st : Store) (metadatas : List Rec)
    (ts1 ts2 : List (List Char)) (h1 : ts1 ≠ []) (h2 : ts2 ≠ []) :
    add_texts ts1 metadatas st = add_texts ts2 metadatas st ∧
    add_texts ts1 metadatas st = st ++ metadatas := by
  simp [add_texts, h1, h2]

/-- Witness for C9: one chunk text against two, with two metadatas (a
length mismatch on both sides), all metadatas appended. -/
theorem c9_add_texts_ignores_chunk_texts_witness :
    add_texts [['a']] [⟨"s", ['a'], "p", "h"⟩, ⟨"s", ['b'], "p", "h"⟩] []
      = add_texts [['b'], ['c'], ['d']] [⟨"s", ['a'], "p", "h"⟩, ⟨"s", ['b'], "p", "h"⟩] [] ∧
    add_texts [['a']] [⟨"s", ['a'], "p", "h"⟩, ⟨"s", ['b'], "p", "h"⟩] []
      = [] ++ [⟨"s", ['a'], "p", "h"⟩, ⟨"s", ['b'], "p", "h"⟩] :=
  c9_add_texts_ignores_chunk_texts [] [⟨"s", ['a'], "p", "h"⟩, ⟨"s", ['b'], "p", "h"⟩]
    [['a']] [['b'], ['c'], ['d']] (by decide) (by decide)

/-- C10: `auto_ingest_if_empty` never propagates an exception: every run
returns `ok`, and when the `try` body fails the returned pair is exactly
the added/removed lists (and store) accumulated up to the failure point,
as carried by the body's error value. -/
theorem c10_auto_ingest_never_raises (env : Env) (docs_dir : String) (st : Store) :
    (∃ out, auto_ingest_if_empty env docs_dir st = Except.ok out) ∧
    ∀ e lists st2, auto_ingest_body env docs_dir st = Except.error (e, lists, st2) →
      auto_ingest_if_empty env docs_dir st = Except.ok (lists, st2) := by
  constructor
  · unfold auto_ingest_if_empty
    cases auto_ingest_body env docs_dir st with
    | ok r => exact ⟨r, rfl⟩
    | error e => exact ⟨(e.2.1, e.2.2), rfl⟩
  · intro e lists st2 hb
    unfold auto_ingest_if_empty
    rw [hb]

/-- An environment whose file hashing raises: for the C10 witness. -/
def envFail : Env where
  dirExists := fun _ => true
  listDir := fun d => if d = "d" then ["d/F.txt"] else []
  parent := fun _ => "d"
  hash := fun _ => .error (.envErr "io")
  extract := fun _ => .error (.envErr "io")
  projectTag := fun _ => "f"

/-- A store with one record, so that `auto_ingest_if_empty` takes the
incremental path and hits `envFail`'s raising hash. -/
def stFail : Store := [⟨"d/F.txt", ['x'], "f", "h0"⟩]

/-- Witness for C10: on `envFail` the body raises inside the change
detection loop and the entry point still returns the accumulated (empty)
lists and the untouched store. -/
theorem c10_auto_ingest_never_raises_witness :
    auto_ingest_body envFail "d" stFail
      = Except.error (PyExc.envErr "io", ([], []), stFail) ∧
    auto_ingest_if_empty envFail "d" stFail = Except.ok (([], []), stFail) :=
  ⟨by rfl, (c10_auto_ingest_never_raises envFail "d" stFail).2 _ _ _ (by rfl)⟩

/-- With `5 * overlap < 2 * chunk_size`, every iteration of the
sliding-window loop advances `start` by at least one, so fuel one beyond
the remaining distance suffices. -/
theorem chunkLoopF_total (cs ov : Nat) (hov : 5 * ov < 2 * cs) (t : List Char) :
    ∀ fuel start acc, t.length ≤ start + fuel →
      ∃ r, chunkLoopF cs ov t (fuel + 1) start acc = some r := by
  have hovcs : ov < cs := by omega
  have hovdiv : ov ≤ 2 * cs / 5 := Nat.le_div_iff_mul_le (by omega) |>.mpr (by omega)
  intro fuel
  induction fuel with
  | zero =>
    intro start acc hle
    refine ⟨acc, ?_⟩
    simp only [chunkLoopF, if_neg (by omega : ¬ start < t.length)]
  | succ n ih =>
    intro start acc hle
    by_cases hlt : start < t.length
    · simp only [chunkLoopF, if_pos hlt]
      rcases hfind : rfindNl ((t.drop start).take cs) with _ | lastNl
      · simp only
        exact ih (start + cs - ov) _ (by omega)
      · simp only
        by_cases hnl : 2 * cs / 5 < lastNl
        · simp only [if_pos hnl]
          exact ih (start + lastNl - ov) _ (by omega)
        · simp only [if_neg hnl]
          exact ih (start + cs - ov) _ (by omega)
    · exact ⟨acc, by simp only [chunkLoopF, if_neg hlt]⟩

/-- C7: the chunker's sliding-window loop terminates on every input for
the default parameters `chunk_size=1000, overlap=150`, and more generally
whenever `overlap < 0.4 * chunk_size` (as naturals: `5*overlap < 2*chunk_size`):
a newline shrink keeps the window end beyond `0.4 * chunk_size > overlap`
characters past `start`, so `start` advances strictly each iteration and
fuel `length + 1` is enough. -/
theorem c7_chunk_text_terminates (text : List Char) (cs ov : Nat) (hov : 5 * ov < 2 * cs) :
    ∃ r, chunk_textF text cs ov = some r := by
  unfold chunk_textF
  by_cases hlen : (normCRLF text).length ≤ cs
  · exact ⟨[normCRLF text], by simp [hlen]⟩
  · simp only [if_neg hlen]
    exact chunkLoopF_total cs ov hov (normCRLF text) (normCRLF text).length 0 [] (by omega)

/-- Witness for C7 at the default parameters on a concrete text longer
than one window (2400 characters of lines of ten characters). -/
theorem c7_chunk_text_terminates_witness :
    5 * 150 < 2 * 1000 ∧
    ∃ r, chunk_textF (List.replicate 240 ['l', 'i', 'n', 'e', ' ', 't', 'e', 'x', 't', '\n']).flatten 1000 150 = some r :=
  ⟨by decide, c7_chunk_text_terminates _ 1000 150 (by decide)⟩


/-- Stable insertion permutes: inserting is a cons up to permutation. -/
theorem insertDesc_perm {α : Type} (x : ℚ × α) (l : List (ℚ × α)) :
    (insertDesc x l).Perm (x :: l) := by
  induction l with
  | nil => simp [insertDesc]
  | cons y ys ih =>
    simp only [insertDesc]
    split
    · exact (ih.cons y).trans (List.Perm.swap x y ys)
    · exact List.Perm.refl _

/-- The insertion fold permutes: sorting rearranges, never adds or drops. -/
theorem sortDesc_aux_perm {α : Type} (l acc : List (ℚ × α)) :
    (l.foldl (fun acc x => insertDesc x acc) acc).Perm (acc ++ l) := by
  induction l generalizing acc with
  | nil => simp
  | cons x xs ih =>
    simp only [List.foldl_cons]
    refine (ih (insertDesc x acc)).trans ?_
    refine ((insertDesc_perm x acc).append_right xs).trans ?_
    exact List.perm_middle.symm

/-- `sortDesc` permutes its input. -/
theorem sortDesc_perm {α : Type} (l : List (ℚ × α)) : (sortDesc l).Perm l := by
  simpa [sortDesc] using sortDesc_aux_perm l []

/-- Keys descending along the list: the sortedness invariant. -/
def KeysDesc {α : Type} (l : List (ℚ × α)) : Prop :=
  List.Pairwise (fun a b => b.1 ≤ a.1) l

/-- Stable insertion preserves descending sortedness. -/
theorem insertDesc_keysDesc {α : Type} (x : ℚ × α) (l : List (ℚ × α))
    (hl : KeysDesc l) : KeysDesc (insertDesc x l) := by
  induction l with
  | nil => simp [insertDesc, KeysDesc]
  | cons y ys ih =>
    rcases List.pairwise_cons.mp hl with ⟨hy, hys⟩
    simp only [insertDesc]
    split
    · rename_i hxy
      refine List.pairwise_cons.mpr ⟨?_, ih hys⟩
      intro z hz
      have hz2 := (insertDesc_perm x ys).mem_iff.mp hz
      rcases List.mem_cons.mp hz2 with rfl | hz3
      · exact hxy
      · exact hy _ hz3
    · rename_i hxy
      have hyx : y.1 ≤ x.1 := le_of_lt (not_le.mp hxy)
      refine List.pairwise_cons.mpr ⟨?_, hl⟩
      intro z hz
      rcases List.mem_cons.mp hz with rfl | hz3
      · exact hyx
      · exact le_trans (hy _ hz3) hyx

/-- The insertion fold from a sorted accumulator is sorted. -/
theorem sortDesc_aux_keysDesc {α : Type} (l acc : List (ℚ × α)) (hacc : KeysDesc acc) :
    KeysDesc (l.foldl (fun acc x => insertDesc x acc) acc) := by
  induction l generalizing acc with
  | nil => simpa
  | cons x xs ih => exact ih (insertDesc x acc) (insertDesc_keysDesc x acc hacc)

/-- `sortDesc` sorts the keys descending. -/
theorem sortDesc_keysDesc {α : Type} (l : List (ℚ × α)) : KeysDesc (sortDesc l) :=
  sortDesc_aux_keysDesc l [] (by simp [KeysDesc])

/-- Filtering one key commutes with stable insertion into a sorted list:
the inserted entry lands after every earlier entry of equal key. -/
theorem insertDesc_filter_key {α : Type} (q : ℚ) (x : ℚ × α) (l : List (ℚ × α))
    (hl : KeysDesc l) :
    (insertDesc x l).filter (fun t => decide (t.1 = q))
      = if x.1 = q then l.filter (fun t => decide (t.1 = q)) ++ [x]
        else l.filter (fun t => decide (t.1 = q)) := by
  induction l with
  | nil =>
    simp only [insertDesc, List.filter_nil]
    by_cases hx : x.1 = q
    · simp [List.filter_cons, hx]
    · simp [List.filter_cons, hx]
  | cons y ys ih =>
    rcases List.pairwise_cons.mp hl with ⟨hy, hys⟩
    simp only [insertDesc]
    split
    · rename_i hxy
      simp only [List.filter_cons]
      rw [ih hys]
      by_cases hxq : x.1 = q
      · simp only [if_pos hxq]
        by_cases hyq : y.1 = q <;> simp [hyq]
      · simp only [if_neg hxq]
    · rename_i hxy
      have hylt : y.1 < x.1 := not_le.mp hxy
      by_cases hxq : x.1 = q
      · have hnil : (y :: ys).filter (fun t => decide (t.1 = q)) = [] := by
          refine List.filter_eq_nil_iff.mpr ?_
          intro z hz
          rcases List.mem_cons.mp hz with rfl | hz3
          · simp only [decide_eq_true_eq]
            intro hq
            exact absurd (hq ▸ hxq ▸ hylt) (lt_irrefl _)
          · simp only [decide_eq_true_eq]
            intro hq
            have : z.1 ≤ y.1 := hy _ hz3
            rw [hq, ← hxq] at this
            exact absurd (lt_of_lt_of_le hylt this) (lt_irrefl _)
        rw [if_pos hxq, hnil, List.filter_cons, if_pos (by simpa using hxq), hnil]
        simp
      · rw [if_neg hxq, List.filter_cons, if_neg (by simpa using hxq), List.filter_cons]

/-- Filtering one key commutes with the whole insertion fold: entries of
equal key keep their original relative order (stability). -/
theorem sortDesc_aux_filter_key {α : Type} (q : ℚ) (l acc : List (ℚ × α)) (hacc : KeysDesc acc) :
    (l.foldl (fun acc x => insertDesc x acc) acc).filter (fun t => decide (t.1 = q))
      = acc.filter (fun t => decide (t.1 = q)) ++ l.filter (fun t => decide (t.1 = q)) := by
  induction l generalizing acc with
  | nil => simp
  | cons x xs ih =>
    simp only [List.foldl_cons]
    rw [ih (insertDesc x acc) (insertDesc_keysDesc x acc hacc)]
    rw [insertDesc_filter_key q x acc hacc]
    by_cases hxq : x.1 = q
    · rw [if_pos hxq, List.filter_cons, if_pos (by simpa using hxq)]
      simp
    · rw [if_neg hxq, List.filter_cons, if_neg (by simpa using hxq)]

/-- `sortDesc` is stable: for every key, the entries carrying it appear in
the output exactly as they appeared in the input. -/
theorem sortDesc_filter_key {α : Type} (q : ℚ) (l : List (ℚ × α)) :
    (sortDesc l).filter (fun t => decide (t.1 = q)) = l.filter (fun t => decide (t.1 = q)) := by
  simpa [sortDesc] using sortDesc_aux_filter_key q l [] (by simp [KeysDesc])

/-- C4: `decide_authoritative_source` scores every grouped source with
`score` (10·procedural + length/1000 + 5·positive − 2·negative, in exact
arithmetic) and returns the sources of the stable descending sort of the
scored list: the output is that sort's projection, the sort is a
permutation of the scored input, its keys descend, and entries of equal
score keep the original grouping-iteration order (no secondary key). -/
theorem c4_ranking_is_stable_descending_by_score (doc_signals : List (String × DocSig)) :
    (decide_authoritative_source doc_signals).1
        = (sortDesc (doc_signals.map (fun p => (score p.2, p.1, p.2)))).map (fun t => t.2.1) ∧
    (sortDesc (doc_signals.map (fun p => (score p.2, p.1, p.2)))).Perm
        (doc_signals.map (fun p => (score p.2, p.1, p.2))) ∧
    KeysDesc (sortDesc (doc_signals.map (fun p => (score p.2, p.1, p.2)))) ∧
    ∀ q : ℚ,
      (sortDesc (doc_signals.map (fun p => (score p.2, p.1, p.2)))).filter
          (fun t => decide (t.1 = q))
        = (doc_signals.map (fun p => (score p.2, p.1, p.2))).filter
            (fun t => decide (t.1 = q)) := by
  refine ⟨?_, sortDesc_perm _, sortDesc_keysDesc _, fun q => sortDesc_filter_key q _⟩
  cases doc_signals with
  | nil => simp [decide_authoritative_source, sortDesc]
  | cons p ps => rfl

/-- The last record of the store carrying a given source (the record whose
hash the dict comprehension of ingest.py line 100 keeps). -/
def lastRec : Store → String → Option Rec
  | [], _ => none
  | m :: rest, s =>
    match lastRec rest s with
    | some m2 => some m2
    | none => if m.source = s then some m else none

/-- Lookup after insertion: the inserted key reads the new value, others
are untouched. -/
theorem dictLookup_dictInsert (d : List (String × String)) (k v s : String) :
    dictLookup (dictInsert d k v) s = if k = s then some v else dictLookup d s := by
  induction d with
  | nil => simp [dictInsert, dictLookup]
  | cons p rest ih =>
    obtain ⟨k0, v0⟩ := p
    simp only [dictInsert]
    by_cases h0 : k0 = k
    · subst h0
      by_cases hs : k0 = s
      · simp [dictLookup, hs]
      · simp [dictLookup, hs]
    · by_cases hs : k0 = s
      · subst hs
        simp only [if_neg h0, dictLookup, if_pos rfl]
        have hks : ¬ k = k0 := fun h => h0 h.symm
        simp [hks]
      · simp [if_neg h0, dictLookup, hs, ih]

/-- A key is in the dict exactly when its lookup succeeds. -/
theorem dictKeys_mem_iff (d : List (String × String)) (s : String) :
    s ∈ dictKeys d ↔ ∃ v, dictLookup d s = some v := by
  induction d with
  | nil => simp [dictKeys, dictLookup]
  | cons p rest ih =>
    obtain ⟨k0, v0⟩ := p
    by_cases hs : k0 = s
    · subst hs
      simp [dictKeys, dictLookup]
    · have hdk : dictKeys ((k0, v0) :: rest) = k0 :: dictKeys rest := rfl
      have hdl : dictLookup ((k0, v0) :: rest) s = dictLookup rest s := by
        simp [dictLookup, hs]
      rw [hdk, hdl, List.mem_cons, ← ih]
      constructor
      · rintro (h | h)
        · exact absurd h.symm hs
        · exact h
      · exact fun h => Or.inr h

/-- A successful lookup exhibits a member pair. -/
theorem dictLookup_mem (d : List (String × String)) (s v : String)
    (h : dictLookup d s = some v) : (s, v) ∈ d := by
  induction d with
  | nil => simp [dictLookup] at h
  | cons p rest ih =>
    obtain ⟨k0, v0⟩ := p
    by_cases hs : k0 = s
    · subst hs
      simp [dictLookup] at h
      simp [h]
    · simp [dictLookup, hs] at h
      exact List.mem_cons_of_mem _ (ih h)

/-- Membership after insertion comes from the old dict or is the new pair. -/
theorem dictInsert_mem (d : List (String × String)) (k v : String) (p : String × String)
    (h : p ∈ dictInsert d k v) : p ∈ d ∨ p = (k, v) := by
  induction d with
  | nil => simp [dictInsert] at h; simp [h]
  | cons q rest ih =>
    obtain ⟨k0, v0⟩ := q
    by_cases h0 : k0 = k
    · subst h0
      simp [dictInsert] at h
      rcases h with h | h
      · right; simp [h]
      · left; exact List.mem_cons_of_mem _ h
    · simp [dictInsert, h0] at h
      rcases h with h | h
      · left; simp [h]
      · rcases ih h with h2 | h2
        · left; exact List.mem_cons_of_mem _ h2
        · right; exact h2

/-- The keys after insertion: unchanged for an old key, appended for a new
one. -/
theorem dictInsert_keys (d : List (String × String)) (k v : String) :
    dictKeys (dictInsert d k v)
      = if k ∈ dictKeys d then dictKeys d else dictKeys d ++ [k] := by
  induction d with
  | nil => simp [dictInsert, dictKeys]
  | cons q rest ih =>
    obtain ⟨k0, v0⟩ := q
    by_cases h0 : k0 = k
    · subst h0
      simp [dictInsert, dictKeys]
    · have hk0 : ¬ k = k0 := fun h => h0 h.symm
      simp only [dictInsert, if_neg h0, dictKeys, List.map_cons] at ih ⊢
      by_cases hk : k ∈ List.map Prod.fst rest
      · rw [if_pos (by simp [hk])] at ih
        rw [ih, if_pos (by simp [hk])]
      · rw [if_neg (by simpa using hk)] at ih
        rw [ih, if_neg (by simp [hk, hk0])]
        simp

/-- Insertion preserves distinctness of the keys. -/
theorem dictInsert_keys_nodup (d : List (String × String)) (k v : String)
    (h : (dictKeys d).Nodup) : (dictKeys (dictInsert d k v)).Nodup := by
  rw [dictInsert_keys]
  by_cases hk : k ∈ dictKeys d
  · simpa [hk]
  · simp only [if_neg hk]
    simpa [List.nodup_append] using ⟨h, fun hmem => hk hmem⟩

/-- A found last record is a member carrying the looked-up source. -/
theorem lastRec_mem (st : Store) (s : String) (m : Rec) (h : lastRec st s = some m) :
    m ∈ st ∧ m.source = s := by
  induction st with
  | nil => simp [lastRec] at h
  | cons m0 rest ih =>
    simp only [lastRec] at h
    rcases hrest : lastRec rest s with _ | m2
    · rw [hrest] at h
      simp only at h
      by_cases hsrc : m0.source = s
      · rw [if_pos hsrc] at h
        cases h
        exact ⟨List.mem_cons_self _ _, hsrc⟩
      · rw [if_neg hsrc] at h
        cases h
    · rw [hrest] at h
      cases h
      rcases ih hrest with ⟨h1, h2⟩
      exact ⟨List.mem_cons_of_mem _ h1, h2⟩

/-- No last record means no record at all carries the source. -/
theorem lastRec_eq_none_iff (st : Store) (s : String) :
    lastRec st s = none ↔ ∀ m ∈ st, ¬ m.source = s := by
  induction st with
  | nil => simp [lastRec]
  | cons m0 rest ih =>
    simp only [lastRec]
    rcases hrest : lastRec rest s with _ | m2
    · simp only
      by_cases hsrc : m0.source = s
      · simp [if_pos hsrc, hsrc]
      · rw [if_neg hsrc]
        constructor
        · intro _ m hm
          rcases List.mem_cons.mp hm with rfl | h2
          · exact hsrc
          · exact ih.mp hrest m h2
        · intro _; rfl
    · simp only
      constructor
      · intro h; cases h
      · intro h
        rcases lastRec_mem rest s m2 hrest with ⟨h1, h2⟩
        exact absurd h2 (h m2 (List.mem_cons_of_mem _ h1))

/-- A member carrying the source forces a last record to exist. -/
theorem lastRec_isSome (st : Store) (s : String) (m : Rec) (hm : m ∈ st)
    (hs : m.source = s) : ∃ m2, lastRec st s = some m2 := by
  rcases h : lastRec st s with _ | m2
  · exact absurd hs ((lastRec_eq_none_iff st s).mp h m hm)
  · exact ⟨m2, rfl⟩

/-- The last record of an appended store: the right part wins when it has
one. -/
theorem lastRec_append (st1 st2 : Store) (s : String) :
    lastRec (st1 ++ st2) s
      = match lastRec st2 s with
        | some m => some m
        | none => lastRec st1 s := by
  induction st1 with
  | nil =>
    rcases h : lastRec st2 s with _ | m2 <;> simp [h, lastRec]
  | cons m0 rest ih =>
    rw [List.cons_append]
    rcases h : lastRec st2 s with _ | m2 <;>
      rcases h1 : lastRec rest s with _ | ma <;>
        simp_all [lastRec]

/-- Removing other sources does not change the last record of a kept one. -/
theorem lastRec_filter_keep (st : Store) (srcs : List String) (s : String)
    (hs : ¬ s ∈ srcs) :
    lastRec (st.filter (fun m => decide (¬ m.source ∈ srcs))) s = lastRec st s := by
  induction st with
  | nil => simp [lastRec]
  | cons m0 rest ih =>
    by_cases hm : m0.source ∈ srcs
    · have : (fun m => decide (¬ m.source ∈ srcs)) m0 = false := by simpa using hm
      rw [List.filter_cons_of_neg (by simpa using hm)]
      rw [ih]
      simp only [lastRec]
      rcases h : lastRec rest s with _ | m2
      · have hsrc : ¬ m0.source = s := fun he => hs (he ▸ hm)
        simp [if_neg hsrc]
      · simp
    · rw [List.filter_cons_of_pos (by simpa using hm)]
      simp only [lastRec, ih]

/-- Removing a source leaves it with no last record. -/
theorem lastRec_filter_gone (st : Store) (srcs : List String) (s : String)
    (hs : s ∈ srcs) :
    lastRec (st.filter (fun m => decide (¬ m.source ∈ srcs))) s = none := by
  refine (lastRec_eq_none_iff _ s).mpr ?_
  intro m hm hsrc
  rcases List.mem_filter.mp hm with ⟨_, hkeep⟩
  have hk2 : ¬ m.source ∈ srcs := by simpa using hkeep
  exact hk2 (by rw [hsrc]; exact hs)

/-- The source-to-hash dict of ingest.py line 100 reads back the hash of
the last record carrying each source. -/
theorem existingSources_lookup_aux (st : Store) (s : String) :
    ∀ d, dictLookup (st.foldl (fun d m => dictInsert d m.source m.file_hash) d) s
      = match lastRec st s with
        | some m => some m.file_hash
        | none => dictLookup d s := by
  induction st with
  | nil => intro d; simp [lastRec]
  | cons m0 rest ih =>
    intro d
    simp only [List.foldl_cons, lastRec, ih, dictLookup_dictInsert]
    rcases h : lastRec rest s with _ | m2
    · simp only
      by_cases hsrc : m0.source = s
      · simp [hsrc]
      · simp [hsrc]
    · rfl

/-- `existingSources` lookup in terms of `lastRec`. -/
theorem existingSources_lookup (st : Store) (s : String) :
    dictLookup (existingSources st) s
      = match lastRec st s with
        | some m => some m.file_hash
        | none => none := by
  rw [existingSources, existingSources_lookup_aux st s []]
  rcases h : lastRec st s with _ | m2 <;> simp [dictLookup]

/-- When every discovered file hashes successfully, the hashing loop
returns a dict. -/
theorem currentFiles_ok (env : Env) (files : List String)
    (hh : ∀ f ∈ files, ∃ h, env.hash f = Except.ok h) :
    ∀ d0, ∃ d, currentFiles env files d0 = Except.ok d := by
  induction files with
  | nil => intro d0; exact ⟨d0, rfl⟩
  | cons f fs ih =>
    intro d0
    rcases hh f (List.mem_cons_self f fs) with ⟨h, hf⟩
    simp only [currentFiles, hf]
    exact ih (fun g hg => hh g (List.mem_cons_of_mem _ hg)) (dictInsert d0 f h)

/-- Every pair of the hashing loop's dict is inherited or records a
successful hash of a discovered file. -/
theorem currentFiles_mem (env : Env) :
    ∀ (files : List String) (d0 d : List (String × String)),
      currentFiles env files d0 = Except.ok d →
      ∀ p ∈ d, p ∈ d0 ∨ (p.1 ∈ files ∧ env.hash p.1 = Except.ok p.2) := by
  intro files
  induction files with
  | nil =>
    intro d0 d hok p hp
    cases hok
    exact Or.inl hp
  | cons f fs ih =>
    intro d0 d hok p hp
    rcases hf : env.hash f with e | h
    · simp [currentFiles, hf] at hok
    · rw [currentFiles, hf] at hok
      rcases ih (dictInsert d0 f h) d hok p hp with h2 | h2
      · rcases dictInsert_mem d0 f h p h2 with h3 | h3
        · exact Or.inl h3
        · refine Or.inr ⟨?_, ?_⟩
          · rw [h3]; exact List.mem_cons_self f fs
          · rw [h3]; exact hf
      · exact Or.inr ⟨List.mem_cons_of_mem _ h2.1, h2.2⟩

/-- A key whose dict value records its own hash keeps that property
through the rest of the hashing loop. -/
theorem currentFiles_lookup_keep (env : Env) :
    ∀ (files : List String) (d0 d : List (String × String)),
      currentFiles env files d0 = Except.ok d →
      ∀ k v, dictLookup d0 k = some v → env.hash k = Except.ok v →
      ∃ v2, dictLookup d k = some v2 ∧ env.hash k = Except.ok v2 := by
  intro files
  induction files with
  | nil =>
    intro d0 d hok k v hv hh
    cases hok
    exact ⟨v, hv, hh⟩
  | cons f fs ih =>
    intro d0 d hok k v hv hh
    rcases hf : env.hash f with e | h
    · simp [currentFiles, hf] at hok
    · rw [currentFiles, hf] at hok
      by_cases hk : f = k
      · subst hk
        refine ih _ d hok f h ?_ hf
        rw [dictLookup_dictInsert, if_pos rfl]
      · refine ih _ d hok k v ?_ hh
        rw [dictLookup_dictInsert, if_neg hk]
        exact hv

/-- Every discovered file ends up in the hashing loop's dict with a
successfully computed hash. -/
theorem currentFiles_lookup (env : Env) :
    ∀ (files : List String) (d0 d : List (String × String)),
      currentFiles env files d0 = Except.ok d →
      ∀ f ∈ files, ∃ v, dictLookup d f = some v ∧ env.hash f = Except.ok v := by
  intro files
  induction files with
  | nil => intro d0 d hok f hf; simp at hf
  | cons g gs ih =>
    intro d0 d hok f hf
    rcases hg : env.hash g with e | h
    · simp [currentFiles, hg] at hok
    · rw [currentFiles, hg] at hok
      rcases List.mem_cons.mp hf with rfl | hf2
      · exact currentFiles_lookup_keep env gs _ d hok f h
          (by rw [dictLookup_dictInsert, if_pos rfl]) hg
      · exact ih _ d hok f hf2

/-- The hashing loop keeps the dict keys distinct. -/
theorem currentFiles_keys_nodup (env : Env) :
    ∀ (files : List String) (d0 d : List (String × String)),
      currentFiles env files d0 = Except.ok d →
      (dictKeys d0).Nodup → (dictKeys d).Nodup := by
  intro files
  induction files with
  | nil => intro d0 d hok hnd; cases hok; exact hnd
  | cons f fs ih =>
    intro d0 d hok hnd
    rcases hf : env.hash f with e | h
    · simp [currentFiles, hf] at hok
    · rw [currentFiles, hf] at hok
      exact ih _ d hok (dictInsert_keys_nodup d0 f h hnd)

/-- The file loop only appends, and every appended record carries a
discovered file as source together with that file's successfully computed
hash. -/
theorem ingestFold_append (env : Env) :
    ∀ (files : List String) (st : Store),
      ∃ new, ingestFold env files st = st ++ new ∧
        ∀ m ∈ new, m.source ∈ files ∧ env.hash m.source = Except.ok m.file_hash := by
  intro files
  induction files with
  | nil => intro st; exact ⟨[], by simp [ingestFold], by simp⟩
  | cons f fs ih =>
    intro st
    have hstep : ingestFold env (f :: fs) st = ingestFold env fs (ingestStep env st f) := rfl
    rcases hsplit : loadSplit env f with e | chunks
    · have h1 : ingestStep env st f = st := by simp [ingestStep, hsplit]
      rcases ih (ingestStep env st f) with ⟨new, hn, hp⟩
      refine ⟨new, by rw [hstep, hn, h1], fun m hm => ?_⟩
      rcases hp m hm with ⟨h2, h3⟩
      exact ⟨List.mem_cons_of_mem _ h2, h3⟩
    · by_cases hempty : chunks = []
      · have h1 : ingestStep env st f = st := by simp [ingestStep, hsplit, hempty]
        rcases ih (ingestStep env st f) with ⟨new, hn, hp⟩
        refine ⟨new, by rw [hstep, hn, h1], fun m hm => ?_⟩
        rcases hp m hm with ⟨h2, h3⟩
        exact ⟨List.mem_cons_of_mem _ h2, h3⟩
      · rcases hh : env.hash f with e | hv
        · have h1 : ingestStep env st f = st := by simp [ingestStep, hsplit, hempty, hh]
          rcases ih (ingestStep env st f) with ⟨new, hn, hp⟩
          refine ⟨new, by rw [hstep, hn, h1], fun m hm => ?_⟩
          rcases hp m hm with ⟨h2, h3⟩
          exact ⟨List.mem_cons_of_mem _ h2, h3⟩
        · have h1 : ingestStep env st f
              = st ++ mkMetas f chunks (env.projectTag f) hv := by
            simp [ingestStep, hsplit, hempty, hh, add_texts]
          rcases ih (ingestStep env st f) with ⟨new, hn, hp⟩
          refine ⟨mkMetas f chunks (env.projectTag f) hv ++ new, ?_, fun m hm => ?_⟩
          · rw [hstep, hn, h1, List.append_assoc]
          · rcases List.mem_append.mp hm with h2 | h2
            · rcases List.mem_map.mp h2 with ⟨c, _, hc⟩
              refine ⟨?_, ?_⟩
              · rw [← hc]; exact List.mem_cons_self f fs
              · rw [← hc]; simpa using hh
            · rcases hp m h2 with ⟨h3, h4⟩
              exact ⟨List.mem_cons_of_mem _ h3, h4⟩

/-- The file loop never drops a record already in the store. -/
theorem ingestFold_mono (env : Env) (files : List String) (st : Store)
    (m : Rec) (hm : m ∈ st) : m ∈ ingestFold env files st := by
  rcases ingestFold_append env files st with ⟨new, hn, _⟩
  rw [hn]
  exact List.mem_append.mpr (Or.inl hm)

/-- A discovered file that splits into at least one chunk and hashes
successfully gains a record in the file loop's result. -/
theorem ingestFold_exists (env : Env) :
    ∀ (files : List String) (st : Store) (f : String) (cs : List (List Char)) (h : String),
      f ∈ files → loadSplit env f = Except.ok cs → cs ≠ [] → env.hash f = Except.ok h →
      ∃ m ∈ ingestFold env files st, m.source = f := by
  intro files
  induction files with
  | nil => intro st f cs h hf; simp at hf
  | cons g gs ih =>
    intro st f cs h hf hsplit hne hh
    rcases List.mem_cons.mp hf with rfl | hf2
    · have h1 : ingestStep env st f = st ++ mkMetas f cs (env.projectTag f) h := by
        simp [ingestStep, hsplit, hne, hh, add_texts]
      rcases cs with _ | ⟨c, cs2⟩
      · exact absurd rfl hne
      · have hmem : (⟨f, c, env.projectTag f, h⟩ : Rec)
            ∈ ingestStep env st f := by
          rw [h1]
          refine List.mem_append.mpr (Or.inr ?_)
          simp [mkMetas]
        refine ⟨⟨f, c, env.projectTag f, h⟩, ?_, rfl⟩
        exact ingestFold_mono env gs _ _ hmem
    · exact ih (ingestStep env st g) f cs h hf2 hsplit hne hh

/-- Removal only drops records. -/
theorem remove_by_sources_sub (srcs : List String) (st : Store) (m : Rec)
    (hm : m ∈ remove_by_sources srcs st) : m ∈ st := by
  unfold remove_by_sources at hm
  split at hm
  · exact hm
  · exact (List.mem_filter.mp hm).1

/-- A record of an unlisted source survives removal. -/
theorem remove_by_sources_keep (srcs : List String) (st : Store) (m : Rec)
    (hm : m ∈ st) (hs : ¬ m.source ∈ srcs) : m ∈ remove_by_sources srcs st := by
  unfold remove_by_sources
  split
  · exact hm
  · exact List.mem_filter.mpr ⟨hm, by simpa using hs⟩

/-- Removal of other sources keeps a source's last record. -/
theorem lastRec_remove_keep (srcs : List String) (st : Store) (s : String)
    (hs : ¬ s ∈ srcs) : lastRec (remove_by_sources srcs st) s = lastRec st s := by
  unfold remove_by_sources
  split
  · rfl
  · exact lastRec_filter_keep st srcs s hs

/-- After removing a source from a store, it has no last record. -/
theorem lastRec_remove_gone (srcs : List String) (st : Store) (s : String)
    (hs : s ∈ srcs) : lastRec (remove_by_sources srcs st) s = none := by
  unfold remove_by_sources
  split
  · rename_i h
    rcases h with h | h
    · rw [h] at hs; simp at hs
    · rw [h]; rfl
  · exact lastRec_filter_gone st srcs s hs

/-- An existing directory makes `ingest_directory` succeed, appending only
records of discovered files with their fresh hashes. -/
theorem ingest_directory_ok (env : Env) (dir : String) (st : Store)
    (hex : env.dirExists dir = true) :
    ∃ new, ingest_directory env dir st false = Except.ok (st ++ new) ∧
      ∀ m ∈ new, m.source ∈ env.listDir dir ∧ env.hash m.source = Except.ok m.file_hash := by
  unfold ingest_directory
  rw [hex]
  simp only [Bool.true_eq_false, if_false]
  by_cases hall : env.listDir dir = []
  · exact ⟨[], by simp [hall], by simp⟩
  · rcases ingestFold_append env (env.listDir dir) st with ⟨new, hn, hp⟩
    exact ⟨new, by simp [hall, hn], hp⟩

/-- When every added file's parent directory exists, the add/update loop
succeeds. -/
theorem syncAdded_ok (env : Env) :
    ∀ (fs : List String) (st : Store),
      (∀ f ∈ fs, env.dirExists (env.parent f) = true) →
      ∃ st2, syncAdded env fs st = Except.ok st2 := by
  intro fs
  induction fs with
  | nil => intro st _; exact ⟨st, rfl⟩
  | cons f fs ih =>
    intro st hp
    rcases ingest_directory_ok env (env.parent f) (remove_by_sources [f] st)
      (hp f (List.mem_cons_self f fs)) with ⟨new, hok, _⟩
    simp only [syncAdded, hok]
    exact ih _ (fun g hg => hp g (List.mem_cons_of_mem _ hg))

/-- A successful non-rebuild `ingest_directory` run is an append of fresh
records of discovered files. -/
theorem ingest_directory_char (env : Env) (dir : String) (st st2 : Store)
    (hok : ingest_directory env dir st false = Except.ok st2) :
    ∃ new, st2 = st ++ new ∧
      ∀ m ∈ new, m.source ∈ env.listDir dir ∧ env.hash m.source = Except.ok m.file_hash := by
  unfold ingest_directory at hok
  rcases hex : env.dirExists dir with _ | _
  · rw [hex] at hok; simp at hok
  · rw [hex] at hok
    simp only [Bool.true_eq_false, if_false] at hok
    by_cases hall : env.listDir dir = []
    · rw [if_pos hall] at hok
      cases hok
      exact ⟨[], by simp, by simp⟩
    · rw [if_neg hall] at hok
      rcases ingestFold_append env (env.listDir dir) st with ⟨new, hn, hp⟩
      cases hok
      exact ⟨new, hn, hp⟩

/-- Every record after the add/update loop is inherited or fresh: appended
by re-ingesting the parent directory of one of the added files, with its
hash freshly computed. -/
theorem syncAdded_mem (env : Env) :
    ∀ (fs : List String) (st st2 : Store),
      syncAdded env fs st = Except.ok st2 →
      ∀ m ∈ st2, m ∈ st ∨
        (env.hash m.source = Except.ok m.file_hash ∧
          ∃ f ∈ fs, m.source ∈ env.listDir (env.parent f)) := by
  intro fs
  induction fs with
  | nil =>
    intro st st2 hok m hm
    cases hok
    exact Or.inl hm
  | cons f fs ih =>
    intro st st2 hok m hm
    rcases hing : ingest_directory env (env.parent f) (remove_by_sources [f] st) false
        with e | stb
    · simp [syncAdded, hing] at hok
    · rw [syncAdded, hing] at hok
      rcases ih stb st2 hok m hm with h2 | h2
      · rcases ingest_directory_char env (env.parent f) _ stb hing with ⟨new, hb, hp⟩
        rw [hb] at h2
        rcases List.mem_append.mp h2 with h3 | h3
        · exact Or.inl (remove_by_sources_sub [f] st m h3)
        · rcases hp m h3 with ⟨h4, h5⟩
          exact Or.inr ⟨h5, f, List.mem_cons_self f fs, h4⟩
      · rcases h2 with ⟨hh, g, hg, hmem⟩
        exact Or.inr ⟨hh, g, List.mem_cons_of_mem _ hg, hmem⟩

/-- A record whose source is not among the added files survives the whole
add/update loop. -/
theorem syncAdded_keep (env : Env) :
    ∀ (fs : List String) (st st2 : Store),
      syncAdded env fs st = Except.ok st2 →
      ∀ m ∈ st, ¬ m.source ∈ fs → m ∈ st2 := by
  intro fs
  induction fs with
  | nil =>
    intro st st2 hok m hm _
    cases hok
    exact hm
  | cons f fs ih =>
    intro st st2 hok m hm hs
    rcases hing : ingest_directory env (env.parent f) (remove_by_sources [f] st) false
        with e | stb
    · simp [syncAdded, hing] at hok
    · rw [syncAdded, hing] at hok
      rcases ingest_directory_char env (env.parent f) _ stb hing with ⟨new, hb, _⟩
      have hm1 : m ∈ remove_by_sources [f] st :=
        remove_by_sources_keep [f] st m hm
          (by simp; intro h; exact hs (by rw [h]; exact List.mem_cons_self f fs))
      have hm2 : m ∈ stb := by rw [hb]; exact List.mem_append.mpr (Or.inl hm1)
      exact ih stb st2 hok m hm2 (fun h => hs (List.mem_cons_of_mem _ h))

/-- The last record of a source after the add/update loop: either its hash
was freshly computed during a parent-directory re-ingest, or the source is
not among the added files and its last record is untouched. -/
theorem syncAdded_last (env : Env) :
    ∀ (fs : List String) (st st2 : Store),
      syncAdded env fs st = Except.ok st2 →
      ∀ s m, lastRec st2 s = some m →
        (env.hash s = Except.ok m.file_hash ∧ ∃ f ∈ fs, s ∈ env.listDir (env.parent f)) ∨
        (¬ s ∈ fs ∧ lastRec st s = some m) := by
  intro fs
  induction fs with
  | nil =>
    intro st st2 hok s m hlast
    cases hok
    exact Or.inr ⟨by simp, hlast⟩
  | cons f fs ih =>
    intro st st2 hok s m hlast
    rcases hing : ingest_directory env (env.parent f) (remove_by_sources [f] st) false
        with e | stb
    · simp [syncAdded, hing] at hok
    · rw [syncAdded, hing] at hok
      rcases ih stb st2 hok s m hlast with h2 | h2
      · rcases h2 with ⟨hh, g, hg, hmem⟩
        exact Or.inl ⟨hh, g, List.mem_cons_of_mem _ hg, hmem⟩
      · rcases h2 with ⟨hnotfs, hlast2⟩
        rcases ingest_directory_char env (env.parent f) _ stb hing with ⟨new, hb, hp⟩
        rw [hb, lastRec_append] at hlast2
        rcases hnew : lastRec new s with _ | m3
        · rw [hnew] at hlast2
          simp only at hlast2
          by_cases hsf : s = f
          · rw [hsf, lastRec_remove_gone [f] st f (List.mem_cons_self f [])] at hlast2
            cases hlast2
          · rw [lastRec_remove_keep [f] st s (by simpa using hsf)] at hlast2
            refine Or.inr ⟨?_, hlast2⟩
            intro hmem
            rcases List.mem_cons.mp hmem with h3 | h3
            · exact hsf h3
            · exact hnotfs h3
        · rw [hnew] at hlast2
          cases hlast2
          rcases lastRec_mem new s m hnew with ⟨hmn, hsrc⟩
          rcases hp m hmn with ⟨h4, h5⟩
          refine Or.inl ⟨by rw [← hsrc]; exact h5, f, List.mem_cons_self f fs, ?_⟩
          rw [← hsrc]; exact h4

/-- An added file with chunks gains a record that survives the rest of the
add/update loop. -/
theorem syncAdded_gains (env : Env) :
    ∀ (fs : List String) (st : Store) (st2 : Store) (f : String) (cs : List (List Char)) (h : String),
      fs.Nodup → f ∈ fs →
      f ∈ env.listDir (env.parent f) →
      loadSplit env f = Except.ok cs → cs ≠ [] → env.hash f = Except.ok h →
      syncAdded env fs st = Except.ok st2 →
      ∃ m ∈ st2, m.source = f := by
  intro fs
  induction fs with
  | nil => intro st st2 f cs h _ hf; simp at hf
  | cons g gs ih =>
    intro st st2 f cs h hnd hf hfp hsplit hne hh hok
    rcases hing : ingest_directory env (env.parent g) (remove_by_sources [g] st) false
        with e | stb
    · simp [syncAdded, hing] at hok
    · rw [syncAdded, hing] at hok
      rcases List.mem_cons.mp hf with rfl | hf2
      · have hallne : env.listDir (env.parent f) ≠ [] := List.ne_nil_of_mem hfp
        have hbfold : stb = ingestFold env (env.listDir (env.parent f))
            (remove_by_sources [f] st) := by
          unfold ingest_directory at hing
          rcases hex : env.dirExists (env.parent f) with _ | _
          · rw [hex] at hing; simp at hing
          · rw [hex] at hing
            simp only [Bool.true_eq_false, if_false, if_neg hallne] at hing
            cases hing
            rfl
        rcases ingestFold_exists env (env.listDir (env.parent f))
            (remove_by_sources [f] st) f cs h hfp hsplit hne hh with ⟨m, hmem, hsrc⟩
        have hnotgs : ¬ m.source ∈ gs := by
          rw [hsrc]
          exact (List.nodup_cons.mp hnd).1
        refine ⟨m, ?_, hsrc⟩
        exact syncAdded_keep env gs stb st2 hok m (by rw [hbfold]; exact hmem) hnotgs
      · exact ih stb st2 f cs h (List.nodup_cons.mp hnd).2 hf2 hfp hsplit hne hh hok

/-- The synchronised-store invariant: every source with records is a
currently discovered file whose dict hash (the last record's) is its
current hash, and every discovered file has records. -/
def storeInv (env : Env) (dir : String) (st : Store) : Prop :=
  (∀ s m, lastRec st s = some m →
    s ∈ env.listDir dir ∧ env.hash s = Except.ok m.file_hash) ∧
  (∀ f ∈ env.listDir dir, ∃ m, lastRec st f = some m)

/-- An added file names a pair of the current dict. -/
theorem addedOf_sub (current existing : List (String × String)) (s : String)
    (hs : s ∈ addedOf current existing) : ∃ v, (s, v) ∈ current := by
  rcases List.mem_map.mp hs with ⟨p, hp, hps⟩
  exact ⟨p.2, by rw [← hps]; exact (List.mem_filter.mp hp).1⟩

/-- The added list has no duplicates when the current dict's keys have
none. -/
theorem addedOf_nodup (current existing : List (String × String))
    (h : (dictKeys current).Nodup) : (addedOf current existing).Nodup := by
  unfold addedOf
  exact h.sublist ((List.filter_sublist current).map Prod.fst)

/-- A pair of the current dict whose key was not reported added reads the
same hash from the index dict. -/
theorem not_added_lookup (current existing : List (String × String))
    (s v : String) (hp : (s, v) ∈ current) (hna : ¬ s ∈ addedOf current existing) :
    dictLookup existing s = some v := by
  rcases hl : dictLookup existing s with _ | h0
  · exfalso
    refine hna (List.mem_map.mpr ⟨(s, v), List.mem_filter.mpr ⟨hp, ?_⟩, rfl⟩)
    simp only [hl]
  · by_cases hv : h0 = v
    · rw [hv]
    · exfalso
      refine hna (List.mem_map.mpr ⟨(s, v), List.mem_filter.mpr ⟨hp, ?_⟩, rfl⟩)
      simp only [hl]
      simpa using hv

/-- A key of the index dict not reported removed is a current key. -/
theorem not_removed_mem (existing current : List (String × String)) (s : String)
    (hs : s ∈ dictKeys existing) (hnr : ¬ s ∈ removedOf existing current) :
    s ∈ dictKeys current := by
  by_contra hnc
  exact hnr (List.mem_filter.mpr ⟨hs, by simpa using hnc⟩)

/-- A current key is never reported removed. -/
theorem current_not_removed (existing current : List (String × String)) (s : String)
    (hs : s ∈ dictKeys current) : ¬ s ∈ removedOf existing current := by
  intro hmem
  have := (List.mem_filter.mp hmem).2
  simp at this
  exact this hs

/-- Second run over a synchronised store: with an existing directory and
hashable files, the sync reports no changes and leaves the store alone. -/
theorem second_run_no_changes (env : Env) (dir : String) (st : Store)
    (hex : env.dirExists dir = true)
    (hhash : ∀ f ∈ env.listDir dir, ∃ h, env.hash f = Except.ok h)
    (hinv : storeInv env dir st) :
    auto_ingest_if_empty env dir st = Except.ok (([], []), st) := by
  unfold auto_ingest_if_empty auto_ingest_body
  rw [hex]
  simp only [Bool.true_eq_false, if_false]
  by_cases hst : st = []
  · have hld : env.listDir dir = [] := by
      rcases hl : env.listDir dir with _ | ⟨f, fs⟩
      · rfl
      · exfalso
        rcases hinv.2 f (by rw [hl]; exact List.mem_cons_self f fs) with ⟨m, hm⟩
        rw [hst] at hm
        simp [lastRec] at hm
    rw [if_pos hst]
    unfold ingest_directory
    rw [hex]
    simp [hld, hst]
  · rw [if_neg hst]
    rcases currentFiles_ok env (env.listDir dir) hhash [] with ⟨current, hcur⟩
    rw [hcur]
    have haddnil : addedOf current (existingSources st) = [] := by
      unfold addedOf
      rw [List.filter_eq_nil_iff.mpr ?_]
      · rfl
      · intro p hp
        rcases currentFiles_mem env (env.listDir dir) [] current hcur p hp with h2 | h2
        · simp at h2
        · rcases hinv.2 p.1 h2.1 with ⟨m, hm⟩
          have hl : dictLookup (existingSources st) p.1 = some m.file_hash := by
            rw [existingSources_lookup, hm]
          rw [hl]
          have hhash2 := (hinv.1 p.1 m hm).2
          rw [h2.2] at hhash2
          have : m.file_hash = p.2 := by
            injection hhash2.symm
          simp [this]
    have hremnil : removedOf (existingSources st) current = [] := by
      unfold removedOf
      refine List.filter_eq_nil_iff.mpr ?_
      intro s hs
      rcases (dictKeys_mem_iff _ s).mp hs with ⟨v, hv⟩
      rw [existingSources_lookup] at hv
      rcases hm : lastRec st s with _ | m
      · rw [hm] at hv; cases hv
      · have hsf := (hinv.1 s m hm).1
        rcases currentFiles_lookup env (env.listDir dir) [] current hcur s hsf with ⟨v2, hv2, _⟩
        have : s ∈ dictKeys current := (dictKeys_mem_iff current s).mpr ⟨v2, hv2⟩
        simp [this]
    simp [haddnil, hremnil]

/-- Keys of the current dict name discovered files with their fresh hashes. -/
theorem current_pair_files (env : Env) (dir : String) (current : List (String × String))
    (hcur : currentFiles env (env.listDir dir) [] = Except.ok current)
    (s v : String) (hp : (s, v) ∈ current) :
    s ∈ env.listDir dir ∧ env.hash s = Except.ok v := by
  rcases currentFiles_mem env (env.listDir dir) [] current hcur (s, v) hp with h | h
  · simp at h
  · exact h

/-- The first sync run establishes the synchronised-store invariant, when
every discovered file hashes and splits into at least one chunk and the
parent directories behave like directories on disk (they exist, list their
member file, and list only files discovered under the docs directory). -/
theorem first_run_storeInv (env : Env) (dir : String) (st0 : Store)
    (hex : env.dirExists dir = true)
    (hparents : ∀ f ∈ env.listDir dir,
      env.dirExists (env.parent f) = true ∧ f ∈ env.listDir (env.parent f) ∧
        ∀ g ∈ env.listDir (env.parent f), g ∈ env.listDir dir)
    (hhash : ∀ f ∈ env.listDir dir, ∃ h, env.hash f = Except.ok h)
    (hchunks : ∀ f ∈ env.listDir dir, ∃ cs, loadSplit env f = Except.ok cs ∧ cs ≠ []) :
    ∀ a r st1, auto_ingest_if_empty env dir st0 = Except.ok ((a, r), st1) →
      storeInv env dir st1 := by
  intro a r st1 hrun
  unfold auto_ingest_if_empty auto_ingest_body at hrun
  rw [hex] at hrun
  simp only [Bool.true_eq_false, if_false] at hrun
  by_cases hst : st0 = []
  · rw [if_pos hst] at hrun
    unfold ingest_directory at hrun
    rw [hex] at hrun
    simp only [Bool.true_eq_false, if_false] at hrun
    by_cases hld : env.listDir dir = []
    · rw [if_pos hld] at hrun
      simp only [Except.ok.injEq, Prod.mk.injEq] at hrun
      have h1 : st1 = st0 := hrun.2.symm
      constructor
      · intro s m hm
        rw [h1, hst] at hm
        simp [lastRec] at hm
      · intro f hf
        rw [hld] at hf
        simp at hf
    · rw [if_neg hld] at hrun
      simp only [Except.ok.injEq, Prod.mk.injEq] at hrun
      have h1 : st1 = ingestFold env (env.listDir dir) (if true = true then [] else st0) :=
        hrun.2.symm
      rw [if_pos rfl] at h1
      constructor
      · intro s m hm
        rcases lastRec_mem st1 s m hm with ⟨hmem, hsrc⟩
        rcases ingestFold_append env (env.listDir dir) [] with ⟨new, hn, hp⟩
        rw [h1, hn] at hmem
        simp only [List.nil_append] at hmem
        rcases hp m hmem with ⟨h2, h3⟩
        rw [← hsrc]
        exact ⟨h2, h3⟩
      · intro f hf
        rcases hchunks f hf with ⟨cs, hsplit, hne⟩
        rcases hhash f hf with ⟨hv, hh⟩
        rcases ingestFold_exists env (env.listDir dir) (if true = true then [] else st0)
            f cs hv hf hsplit hne hh with ⟨m, hmem, hsrc⟩
        rw [if_pos rfl, ← h1] at hmem
        exact lastRec_isSome st1 f m hmem hsrc
  · rw [if_neg hst] at hrun
    rcases currentFiles_ok env (env.listDir dir) hhash [] with ⟨current, hcur⟩
    rw [hcur] at hrun
    simp only [] at hrun
    by_cases hchange : addedOf current (existingSources st0) = []
        ∧ removedOf (existingSources st0) current = []
    · rw [if_pos hchange] at hrun
      simp only [Except.ok.injEq, Prod.mk.injEq] at hrun
      have h1 : st1 = st0 := hrun.2.symm
      have haddnil := hchange.1
      have hremnil := hchange.2
      subst h1
      constructor
      · intro s m hm
        have hl : dictLookup (existingSources st1) s = some m.file_hash := by
          rw [existingSources_lookup, hm]
        have hkey : s ∈ dictKeys (existingSources st1) :=
          (dictKeys_mem_iff _ s).mpr ⟨m.file_hash, hl⟩
        have hcurkey : s ∈ dictKeys current :=
          not_removed_mem _ current s hkey (by rw [hremnil]; simp)
        rcases (dictKeys_mem_iff current s).mp hcurkey with ⟨v, hv⟩
        have hpair := dictLookup_mem current s v hv
        rcases current_pair_files env dir current hcur s v hpair with ⟨hsf, hshash⟩
        have hlv : dictLookup (existingSources st1) s = some v :=
          not_added_lookup current (existingSources st1) s v hpair
            (by rw [haddnil]; simp)
        rw [hl] at hlv
        have : m.file_hash = v := by injection hlv
        rw [this]
        exact ⟨hsf, hshash⟩
      · intro f hf
        rcases currentFiles_lookup env (env.listDir dir) [] current hcur f hf with ⟨v, hv, _⟩
        have hpair := dictLookup_mem current f v hv
        have hlf : dictLookup (existingSources st1) f = some v :=
          not_added_lookup current (existingSources st1) f v hpair
            (by rw [haddnil]; simp)
        rw [existingSources_lookup] at hlf
        rcases hm : lastRec st1 f with _ | m
        · rw [hm] at hlf; cases hlf
        · exact ⟨m, rfl⟩
    · rw [if_neg hchange] at hrun
      set added := addedOf current (existingSources st0) with hadded
      set removed := removedOf (existingSources st0) current with hremoved
      set stmid := if removed = [] then st0 else remove_by_sources removed st0 with hstmid
      have haddsub : ∀ f ∈ added, f ∈ env.listDir dir := by
        intro f hf
        rcases addedOf_sub current (existingSources st0) f hf with ⟨v, hv⟩
        exact (current_pair_files env dir current hcur f v hv).1
      have hmidlast : ∀ s m, lastRec stmid s = some m →
          ¬ s ∈ removed ∧ lastRec st0 s = some m := by
        intro s m hm
        by_cases hr : removed = []
        · rw [hstmid, if_pos hr] at hm
          exact ⟨by rw [hr]; simp, hm⟩
        · rw [hstmid, if_neg hr] at hm
          by_cases hsr : s ∈ removed
          · rw [lastRec_remove_gone removed st0 s hsr] at hm
            cases hm
          · rw [lastRec_remove_keep removed st0 s hsr] at hm
            exact ⟨hsr, hm⟩
      have hstale : ∀ s m, ¬ s ∈ added → lastRec stmid s = some m →
          s ∈ env.listDir dir ∧ env.hash s = Except.ok m.file_hash := by
        intro s m hna hm
        rcases hmidlast s m hm with ⟨hnr, hm0⟩
        have hl : dictLookup (existingSources st0) s = some m.file_hash := by
          rw [existingSources_lookup, hm0]
        have hkey : s ∈ dictKeys (existingSources st0) :=
          (dictKeys_mem_iff _ s).mpr ⟨m.file_hash, hl⟩
        have hcurkey : s ∈ dictKeys current := not_removed_mem _ current s hkey hnr
        rcases (dictKeys_mem_iff current s).mp hcurkey with ⟨v, hv⟩
        have hpair := dictLookup_mem current s v hv
        rcases current_pair_files env dir current hcur s v hpair with ⟨hsf, hshash⟩
        have hlv : dictLookup (existingSources st0) s = some v :=
          not_added_lookup current (existingSources st0) s v hpair hna
        rw [hl] at hlv
        have : m.file_hash = v := by injection hlv
        rw [this]
        exact ⟨hsf, hshash⟩
      have hkeepmid : ∀ f ∈ env.listDir dir, ¬ f ∈ added →
          ∃ m ∈ stmid, m.source = f := by
        intro f hf hna
        rcases currentFiles_lookup env (env.listDir dir) [] current hcur f hf with ⟨v, hv, _⟩
        have hpair := dictLookup_mem current f v hv
        have hlf : dictLookup (existingSources st0) f = some v :=
          not_added_lookup current (existingSources st0) f v hpair hna
        rw [existingSources_lookup] at hlf
        rcases hm0 : lastRec st0 f with _ | m0
        · rw [hm0] at hlf; cases hlf
        · rcases lastRec_mem st0 f m0 hm0 with ⟨hmem0, hsrc0⟩
          have hfnr : ¬ f ∈ removed := by
            rw [hremoved]
            exact current_not_removed (existingSources st0) current f
              ((dictKeys_mem_iff current f).mpr ⟨v, hv⟩)
          refine ⟨m0, ?_, hsrc0⟩
          by_cases hr : removed = []
          · rw [hstmid, if_pos hr]; exact hmem0
          · rw [hstmid, if_neg hr]
            exact remove_by_sources_keep removed st0 m0 hmem0 (by rw [hsrc0]; exact hfnr)
      by_cases hae : added = []
      · rw [if_pos hae] at hrun
        simp only [Except.ok.injEq, Prod.mk.injEq] at hrun
        have h1 : st1 = stmid := hrun.2.symm
        subst h1
        constructor
        · intro s m hm
          exact hstale s m (by rw [hae]; simp) hm
        · intro f hf
          rcases hkeepmid f hf (by rw [hae]; simp) with ⟨m, hmem, hsrc⟩
          exact lastRec_isSome _ f m hmem hsrc
      · rw [if_neg hae] at hrun
        rcases syncAdded_ok env added stmid
            (fun f hf => (hparents f (haddsub f hf)).1) with ⟨st2, hsy⟩
        rw [hsy] at hrun
        simp only [Except.ok.injEq, Prod.mk.injEq] at hrun
        have h1 : st1 = st2 := hrun.2.symm
        subst h1
        constructor
        · intro s m hm
          rcases syncAdded_last env added stmid st1 hsy s m hm with h2 | h2
          · rcases h2 with ⟨hh2, f, hfadd, hmem⟩
            exact ⟨(hparents f (haddsub f hfadd)).2.2 s hmem, hh2⟩
          · exact hstale s m h2.1 h2.2
        · intro f hf
          by_cases hfa : f ∈ added
          · have hnd : added.Nodup := by
              rw [hadded]
              exact addedOf_nodup current (existingSources st0)
                (currentFiles_keys_nodup env (env.listDir dir) [] current hcur (by simp [dictKeys]))
            rcases hchunks f hf with ⟨cs, hsplit, hne⟩
            rcases hhash f hf with ⟨hv, hh⟩
            rcases syncAdded_gains env added stmid st1 f cs hv hnd hfa
                (hparents f hf).2.1 hsplit hne hh hsy with ⟨m, hmem, hsrc⟩
            exact lastRec_isSome _ f m hmem hsrc
          · rcases hkeepmid f hf hfa with ⟨m0, hmem0, hsrc0⟩
            have hmem1 : m0 ∈ st1 :=
              syncAdded_keep env added stmid st1 hsy m0 hmem0 (by rw [hsrc0]; exact hfa)
            exact lastRec_isSome _ f m0 hmem1 hsrc0

/-- C3 (amended): sync is idempotent provided every discovered file splits
into at least one chunk, hashing succeeds, and the parent directories of
discovered files exist, list their member file, and list only files
discovered under the docs directory: whatever store the first run returns,
the second run reports `added = ∅`, `removed = ∅` and leaves it unchanged. -/
theorem c3_sync_idempotent_when_files_chunk (env : Env) (dir : String) (st0 : Store)
    (hex : env.dirExists dir = true)
    (hparents : ∀ f ∈ env.listDir dir,
      env.dirExists (env.parent f) = true ∧ f ∈ env.listDir (env.parent f) ∧
        ∀ g ∈ env.listDir (env.parent f), g ∈ env.listDir dir)
    (hhash : ∀ f ∈ env.listDir dir, ∃ h, env.hash f = Except.ok h)
    (hchunks : ∀ f ∈ env.listDir dir, ∃ cs, loadSplit env f = Except.ok cs ∧ cs ≠ []) :
    ∀ a r st1, auto_ingest_if_empty env dir st0 = Except.ok ((a, r), st1) →
      auto_ingest_if_empty env dir st1 = Except.ok (([], []), st1) :=
  fun a r st1 hrun =>
    second_run_no_changes env dir st1 hex hhash
      (first_run_storeInv env dir st0 hex hparents hhash hchunks a r st1 hrun)

/-- A docs directory holding exactly one supported file whose extraction
yields one chunk. -/
def envOne : Env where
  dirExists := fun _ => true
  listDir := fun d => if d = "d" then ["d/A.txt"] else []
  parent := fun _ => "d"
  hash := fun f => if f = "d/A.txt" then Except.ok "hA" else Except.error (.envErr "missing")
  extract := fun f => if f = "d/A.txt" then Except.ok ['a'] else Except.error (.envErr "missing")
  projectTag := fun _ => "a"

/-- Witness for C3 (amended) on `envOne`: the first run ingests the file,
the second reports no changes. -/
theorem c3_sync_idempotent_when_files_chunk_witness :
    auto_ingest_if_empty envOne "d" []
      = Except.ok ((["d/A.txt"], []), [⟨"d/A.txt", ['a'], "a", "hA"⟩]) ∧
    auto_ingest_if_empty envOne "d" [⟨"d/A.txt", ['a'], "a", "hA"⟩]
      = Except.ok (([], []), [⟨"d/A.txt", ['a'], "a", "hA"⟩]) := by
  have hparents : ∀ f ∈ envOne.listDir "d",
      envOne.dirExists (envOne.parent f) = true ∧ f ∈ envOne.listDir (envOne.parent f) ∧
        ∀ g ∈ envOne.listDir (envOne.parent f), g ∈ envOne.listDir "d" := by decide
  have hhash : ∀ f ∈ envOne.listDir "d", ∃ h, envOne.hash f = Except.ok h := by
    intro f hf
    have : f = "d/A.txt" := by simpa [envOne] using hf
    subst this
    exact ⟨"hA", rfl⟩
  have hchunks : ∀ f ∈ envOne.listDir "d",
      ∃ cs, loadSplit envOne f = Except.ok cs ∧ cs ≠ [] := by
    intro f hf
    have : f = "d/A.txt" := by simpa [envOne] using hf
    subst this
    exact ⟨[['a']], rfl, by simp⟩
  refine ⟨by rfl, ?_⟩
  exact c3_sync_idempotent_when_files_chunk envOne "d" [] (by rfl) hparents hhash hchunks
    ["d/A.txt"] [] [⟨"d/A.txt", ['a'], "a", "hA"⟩] (by rfl)

/-- A docs directory holding exactly one supported file whose extraction
yields no text at all (an empty file). -/
def envEmptyFile : Env where
  dirExists := fun _ => true
  listDir := fun d => if d = "d" then ["d/E.txt"] else []
  parent := fun _ => "d"
  hash := fun f => if f = "d/E.txt" then Except.ok "hE" else Except.error (.envErr "missing")
  extract := fun f => if f = "d/E.txt" then Except.ok [] else Except.error (.envErr "missing")
  projectTag := fun _ => "e"

/-- Counterexample to C3 as stated: on a directory holding one empty file,
the first sync run (from the empty store) stores nothing, so the second
run — directory contents unchanged — again reports the file as added:
`added = {"d/E.txt"} ≠ ∅`. -/
theorem c3_counterexample_chunkless_file :
    (match auto_ingest_if_empty envEmptyFile "d" [] with
      | Except.ok (_, st1) => auto_ingest_if_empty envEmptyFile "d" st1
      | Except.error e => Except.error e)
      = Except.ok ((["d/E.txt"], []), []) ∧
    (["d/E.txt"] : List String) ≠ [] := by
  exact ⟨by rfl, by simp⟩

/-- Counterexample to C2 as stated: the empty file yields no chunks
(`load_and_split_docs` returns `[]`) and nothing is stored for it, yet the
full rebuild reports it in `added`. -/
theorem c2_counterexample_chunkless_file :
    auto_ingest_if_empty envEmptyFile "d" [] = Except.ok ((["d/E.txt"], []), []) ∧
    loadSplit envEmptyFile "d/E.txt" = Except.ok [] := by
  exact ⟨by rfl, by rfl⟩

/-- C2 (amended): when sync starts with an empty store and the directory
exists, the returned added list is exactly the discovered supported files
— including any file whose extraction yields no chunks (such a file is
skipped for record insertion but still reported) — and removed is empty. -/
theorem c2_full_rebuild_reports_all_discovered (env : Env) (docs_dir : String)
    (hex : env.dirExists docs_dir = true) :
    ∃ st2, auto_ingest_if_empty env docs_dir []
      = Except.ok ((env.listDir docs_dir, []), st2) := by
  unfold auto_ingest_if_empty auto_ingest_body
  rw [hex]
  simp only [Bool.true_eq_false, if_false, if_pos rfl]
  unfold ingest_directory
  rw [hex]
  simp only [Bool.true_eq_false, if_false]
  by_cases hall : env.listDir docs_dir = []
  · rw [if_pos hall]
    exact ⟨[], rfl⟩
  · rw [if_neg hall]
    exact ⟨ingestFold env (env.listDir docs_dir) (if true = true then [] else []), rfl⟩

/-- Witness for C2 (amended) at `envEmptyFile`. -/
theorem c2_full_rebuild_reports_all_discovered_witness :
    envEmptyFile.dirExists "d" = true ∧
    ∃ st2, auto_ingest_if_empty envEmptyFile "d" []
      = Except.ok ((envEmptyFile.listDir "d", []), st2) :=
  ⟨rfl, c2_full_rebuild_reports_all_discovered envEmptyFile "d" rfl⟩

/-- A docs directory holding a modified file `A.txt` and an unchanged
sibling `C.txt`; the index holds `A`'s old-hash records and `C`'s current
records. -/
def envSib : Env where
  dirExists := fun _ => true
  listDir := fun d => if d = "d" then ["d/A.txt", "d/C.txt"] else []
  parent := fun _ => "d"
  hash := fun f =>
    if f = "d/A.txt" then Except.ok "hA2"
    else if f = "d/C.txt" then Except.ok "hC"
    else Except.error (.envErr "missing")
  extract := fun f =>
    if f = "d/A.txt" then Except.ok ['a']
    else if f = "d/C.txt" then Except.ok ['c']
    else Except.error (.envErr "missing")
  projectTag := fun _ => "d"

/-- The pre-sync store for `envSib`: `A` with its old hash, `C` current. -/
def stSib : Store :=
  [⟨"d/A.txt", ['x'], "d", "hA1"⟩, ⟨"d/C.txt", ['c'], "d", "hC"⟩]

/-- C1: the incremental sync of the modified `A.txt` re-ingests `A`'s
whole parent directory, so the unchanged sibling `C.txt` — neither added
nor removed — ends the sync with its records duplicated (one surviving
record plus one freshly re-extracted), where the claim requires them
unchanged; `A`'s old-hash records are indeed gone. -/
theorem c1_parent_reingest_duplicates_sibling :
    auto_ingest_if_empty envSib "d" stSib
      = Except.ok ((["d/A.txt"], []),
          [⟨"d/C.txt", ['c'], "d", "hC"⟩, ⟨"d/A.txt", ['a'], "d", "hA2"⟩,
           ⟨"d/C.txt", ['c'], "d", "hC"⟩]) ∧
    (stSib.filter (fun m => decide (m.source = "d/C.txt"))).length = 1 ∧
    (([⟨"d/C.txt", ['c'], "d", "hC"⟩, ⟨"d/A.txt", ['a'], "d", "hA2"⟩,
       ⟨"d/C.txt", ['c'], "d", "hC"⟩] : Store).filter
        (fun m => decide (m.source = "d/C.txt"))).length = 2 := by
  refine ⟨by rfl, by rfl, by rfl⟩
